import Mathlib

/-!
Verification of the post query pipeline (`processing.py`) of the
`garantx.ru` posts service.

The embedding models:

* `calculate_word_frequency` — lowercase the text, extract maximal runs of
  word characters (letters, digits, underscore, the ASCII reading of the
  regex `\b\w+\b`), and tally them in first-occurrence order exactly as
  `dict(Counter(words))` does;
* `get_processed_posts` — build the filter (truthy `category` equality,
  one `content ILIKE '%kw%'` clause per keyword), count all matching rows,
  then order by `id`, apply `offset`/`limit` and map each row to a
  processed record carrying its word-frequency tally.

SQL `ILIKE` is modelled by ASCII-lowercasing both sides and running the
standard `LIKE` pattern interpretation (`%` = any sequence, `_` = any
single character, everything else literal), which is what
`lower(content) LIKE lower(pattern)` does on the SQLite backend.
Rows are lists of `Post`; `NULL`able columns are `Option`-valued, and a
`NULL` column makes an equality or `LIKE` comparison false, as in SQL.
-/

namespace GarantX

/-- A row of the `posts` table (`models.py`): integer primary key,
nullable string `category`, nullable text `content`. -/
structure Post where
  id : Nat
  category : Option String
  content : Option String
deriving DecidableEq

/-- A processed record as assembled by `get_processed_posts`:
`id` and `category` copied verbatim, plus the word-frequency tally. -/
structure ProcessedPost where
  id : Nat
  category : Option String
  word_frequency : List (String × Nat)
deriving DecidableEq

/-- ASCII word character: letter, digit or underscore — the characters the
regex class `\w` matches on the ASCII texts in scope. -/
def isWordChar (c : Char) : Bool :=
  decide ((48 ≤ c.toNat ∧ c.toNat ≤ 57) ∨ (65 ≤ c.toNat ∧ c.toNat ≤ 90) ∨
    (97 ≤ c.toNat ∧ c.toNat ≤ 122) ∨ c.toNat = 95)

/-- One left-to-right scan splitting a character list into the maximal runs
of word characters, accumulating the current run in reverse in `acc`. -/
def tokenizeAux : List Char → List Char → List (List Char)
  | [], acc => if acc = [] then [] else [acc.reverse]
  | c :: cs, acc =>
    if isWordChar c then tokenizeAux cs (c :: acc)
    else if acc = [] then tokenizeAux cs [] else acc.reverse :: tokenizeAux cs []

/-- The maximal runs of word characters of a text, in order: the ASCII
reading of `re.findall(r'\b\w+\b', text)`. -/
def tokenize (l : List Char) : List (List Char) :=
  tokenizeAux l []

/-- Record one more occurrence of `w` in a tally list, appending a fresh
`(w, 1)` entry when `w` is new — how a `Counter`/`dict` update behaves. -/
def bump [DecidableEq α] : List (α × Nat) → α → List (α × Nat)
  | [], w => [(w, 1)]
  | (k, v) :: rest, w =>
    if k = w then (k, v + 1) :: rest else (k, v) :: bump rest w

/-- `dict(Counter(ws))`: tally the elements of `ws`, keys in
first-occurrence order. -/
def counter [DecidableEq α] (ws : List α) : List (α × Nat) :=
  ws.foldl bump []

/-- Look a key up in a tally list; absent keys count 0. -/
def freqOf [DecidableEq α] : List (α × Nat) → α → Nat
  | [], _ => 0
  | (k, v) :: rest, w => if k = w then v else freqOf rest w

/-- `calculate_word_frequency` (`processing.py`): falsy input (absent or
empty text) gives the empty mapping; otherwise lowercase the text, take
the `\b\w+\b` tokens and tally them with `Counter`. -/
def calculate_word_frequency (text : Option String) : List (String × Nat) :=
  match text with
  | none => []
  | some t =>
    if t = "" then []
    else counter ((tokenize (t.data.map Char.toLower)).map (fun w => String.mk w))

/-- All suffixes of a list, longest first (the list itself down to `[]`). -/
def sufs : List Char → List (List Char)
  | [] => [[]]
  | c :: s => (c :: s) :: sufs s

/-- SQL `LIKE` pattern interpretation: `%` matches any sequence, `_` any
single character, every other pattern character only itself. -/
def likeMatch : List Char → List Char → Bool
  | [], s => s.isEmpty
  | c :: p, s =>
    if c = '%' then (sufs s).any (fun t => likeMatch p t)
    else
      match s with
      | [] => false
      | d :: s' => (if c = '_' then true else c == d) && likeMatch p s'

/-- `column.ilike(pattern)` on the SQLite backend:
`lower(column) LIKE lower(pattern)` with ASCII lowercasing. -/
def ilikeMatch (pat s : String) : Bool :=
  likeMatch (pat.data.map Char.toLower) (s.data.map Char.toLower)

/-- The category restriction of the query: Python adds the clause
`Post.category == category` only when `category` is truthy, so `None` and
`""` impose no restriction; a `NULL` category never equals a string. -/
def categoryClause (category : Option String) (p : Post) : Bool :=
  match category with
  | none => true
  | some c => if c = "" then true else decide (p.category = some c)

/-- One keyword clause of the query: `Post.content.ilike` applied to the
pattern `'%' + keyword + '%'` with the keyword spliced in unescaped; a
`NULL` content never matches. -/
def keywordClause (kw : String) (p : Post) : Bool :=
  match p.content with
  | none => false
  | some s => ilikeMatch ("%" ++ kw ++ "%") s

/-- The keyword restrictions of the query: Python adds one clause per
keyword only when `keywords` is truthy; an absent or empty list imposes
none, and the added clauses conjoin. -/
def keywordsClause (keywords : Option (List String)) (p : Post) : Bool :=
  match keywords with
  | none => true
  | some ks => ks.all (fun kw => keywordClause kw p)

/-- The full `WHERE` predicate of `base_stmt`. -/
def postMatches (category : Option String) (keywords : Option (List String))
    (p : Post) : Bool :=
  categoryClause category p && keywordsClause keywords p

/-- Comparison used by `ORDER BY posts.id`. -/
def postLe (a b : Post) : Prop :=
  a.id ≤ b.id

instance : DecidableRel postLe :=
  fun a b => Nat.decLe a.id b.id

instance : IsTotal Post postLe :=
  ⟨fun a b => Nat.le_total a.id b.id⟩

instance : IsTrans Post postLe :=
  ⟨fun _ _ _ h₁ h₂ => Nat.le_trans h₁ h₂⟩

/-- `ORDER BY posts.id` on a result set (a stable sort on `id`; `id` is the
primary key, so the order is in fact unique). -/
def sortById (l : List Post) : List Post :=
  List.insertionSort postLe l

/-- Row assembly of `get_processed_posts`: copy `id` and `category`, attach
the word-frequency tally of `content`. -/
def processPost (p : Post) : ProcessedPost :=
  ⟨p.id, p.category, calculate_word_frequency p.content⟩

/-- `get_processed_posts` (`processing.py`) over a store of rows: filter by
the `WHERE` predicate, count every matching row, then order by `id`, skip
`offset`, keep at most `limit` and process each remaining row. -/
def get_processed_posts (store : List Post) (category : Option String)
    (keywords : Option (List String)) (limit : Nat) (offset : Nat) :
    Nat × List ProcessedPost :=
  let matching := store.filter (postMatches category keywords)
  let total_count := matching.length
  let posts_on_page := ((sortById matching).drop offset).take limit
  (total_count, posts_on_page.map processPost)

/-! ### Tally lemmas -/

theorem freqOf_bump [DecidableEq α] (m : List (α × Nat)) (u w : α) :
    freqOf (bump m u) w = freqOf m w + (if u = w then 1 else 0) := by
  induction m with
  | nil =>
    by_cases h : u = w
    · simp [bump, freqOf, h]
    · simp [bump, freqOf, h]
  | cons kv rest ih =>
    obtain ⟨k, v⟩ := kv
    by_cases hk : k = u
    · subst hk
      by_cases hw : k = w
      · simp [bump, freqOf, hw]
      · simp [bump, freqOf, hw]
    · by_cases hw : k = w
      · have hu : ¬u = w := fun h => hk (hw.trans h.symm)
        have hwu : ¬w = u := fun h => hk (hw.trans h)
        simp [bump, freqOf, hk, hw, hu, hwu]
      · simp [bump, freqOf, hk, hw, ih]

theorem freqOf_foldl_bump [DecidableEq α] (w : α) :
    ∀ (ws : List α) (m : List (α × Nat)),
      freqOf (ws.foldl bump m) w = freqOf m w + ws.count w := by
  intro ws
  induction ws with
  | nil => intro m; simp
  | cons u ws ih =>
    intro m
    rw [List.foldl_cons, ih, freqOf_bump, List.count_cons]
    by_cases h : u = w
    · simp [h]
      omega
    · have h' : ¬w = u := fun hh => h hh.symm
      simp [h, h']

theorem freqOf_counter [DecidableEq α] (ws : List α) (w : α) :
    freqOf (counter ws) w = ws.count w := by
  rw [counter, freqOf_foldl_bump]
  simp [freqOf]

/-! ### Lowercasing and tokenization lemmas -/

theorem toNat_ofNat_of_lt {n : Nat} (h : n < 55296) : (Char.ofNat n).toNat = n := by
  rw [Char.ofNat, dif_pos (Or.inl h)]
  rfl

theorem isWordChar_toLower (c : Char) : isWordChar c.toLower = isWordChar c := by
  unfold Char.toLower
  by_cases h : c.toNat ≥ 65 ∧ c.toNat ≤ 90
  · rw [if_pos h]
    have h32 : (Char.ofNat (c.toNat + 32)).toNat = c.toNat + 32 :=
      toNat_ofNat_of_lt (by omega)
    unfold isWordChar
    rw [h32, decide_eq_decide]
    omega
  · rw [if_neg h]

theorem tokenizeAux_map (f : Char → Char)
    (hf : ∀ c, isWordChar (f c) = isWordChar c) :
    ∀ (l acc : List Char),
      tokenizeAux (l.map f) (acc.map f) = (tokenizeAux l acc).map (List.map f) := by
  intro l
  induction l with
  | nil =>
    intro acc
    by_cases h : acc = []
    · subst h; rfl
    · have h' : acc.map f ≠ [] := by simpa using h
      simp only [List.map_nil, tokenizeAux, if_neg h, if_neg h']
      simp
  | cons c cs ih =>
    intro acc
    simp only [List.map_cons, tokenizeAux, hf c]
    by_cases hw : isWordChar c
    · rw [if_pos hw, if_pos hw, ← List.map_cons f c acc, ih (c :: acc)]
    · rw [if_neg hw, if_neg hw]
      by_cases h : acc = []
      · subst h
        simpa using ih []
      · have h' : acc.map f ≠ [] := by simpa using h
        rw [if_neg h, if_neg h']
        have := ih []
        simp only [List.map_nil] at this
        simp [this]

theorem tokenize_map_toLower (l : List Char) :
    tokenize (l.map Char.toLower) = (tokenize l).map (List.map Char.toLower) := by
  have := tokenizeAux_map Char.toLower isWordChar_toLower l []
  simpa [tokenize] using this

theorem freqOf_calculate_word_frequency (t : String) (w : String) :
    freqOf (calculate_word_frequency (some t)) w
      = ((tokenize t.data).map (fun tok => String.mk (tok.map Char.toLower))).count w := by
  by_cases h : t = ""
  · subst h
    rfl
  · simp only [calculate_word_frequency, if_neg h]
    rw [freqOf_counter, tokenize_map_toLower, List.map_map]
    rfl

/-- Whether `w` is an initial segment of `s`. -/
def segStart : List Char → List Char → Bool
  | [], _ => true
  | _ :: _, [] => false
  | c :: w, d :: s => c == d && segStart w s

/-- Whether `w` occurs contiguously somewhere inside `s`. -/
def occursInB (w s : List Char) : Bool :=
  (sufs s).any (fun t => segStart w t)

/-- The spec's reading of keyword matching, for comparison with the
implementation: the keyword occurs **literally** in the content, both
sides compared after ASCII lowercasing. -/
def containsCI (kw s : String) : Bool :=
  occursInB (kw.data.map Char.toLower) (s.data.map Char.toLower)

/-! ### Substring and `LIKE` pattern lemmas -/

theorem mem_sufs {t s : List Char} : t ∈ sufs s ↔ ∃ a, s = a ++ t := by
  induction s with
  | nil =>
    constructor
    · intro h
      have ht : t = [] := by simpa [sufs] using h
      exact ⟨[], by simp [ht]⟩
    · rintro ⟨a, ha⟩
      have := List.append_eq_nil.mp ha.symm
      simp [sufs, this.2]
  | cons c s ih =>
    simp only [sufs, List.mem_cons, ih]
    constructor
    · rintro (rfl | ⟨a, rfl⟩)
      · exact ⟨[], rfl⟩
      · exact ⟨c :: a, rfl⟩
    · rintro ⟨a, ha⟩
      cases a with
      | nil =>
        left
        simpa using ha.symm
      | cons x a =>
        rw [List.cons_append, List.cons.injEq] at ha
        right
        exact ⟨a, ha.2⟩

theorem nil_mem_sufs (s : List Char) : [] ∈ sufs s := by
  induction s with
  | nil => simp [sufs]
  | cons c s ih => simp [sufs, ih]

theorem segStart_iff (w : List Char) : ∀ s, segStart w s = true ↔ ∃ b, s = w ++ b := by
  induction w with
  | nil =>
    intro s
    simp [segStart]
  | cons c w ih =>
    intro s
    cases s with
    | nil => simp [segStart]
    | cons d s =>
      simp only [segStart, Bool.and_eq_true, beq_iff_eq, ih s, List.cons_append,
        List.cons.injEq]
      constructor
      · rintro ⟨rfl, b, rfl⟩
        exact ⟨b, rfl, rfl⟩
      · rintro ⟨b, rfl, rfl⟩
        exact ⟨rfl, b, rfl⟩

theorem occursInB_iff (w s : List Char) :
    occursInB w s = true ↔ ∃ a b, s = a ++ w ++ b := by
  simp only [occursInB, List.any_eq_true]
  constructor
  · rintro ⟨t, ht, hseg⟩
    obtain ⟨a, rfl⟩ := mem_sufs.mp ht
    obtain ⟨b, rfl⟩ := (segStart_iff w t).mp hseg
    exact ⟨a, b, by simp⟩
  · rintro ⟨a, b, rfl⟩
    exact ⟨w ++ b, mem_sufs.mpr ⟨a, by simp⟩, (segStart_iff _ _).mpr ⟨b, rfl⟩⟩

theorem likeMatch_pct (p : List Char) (s : List Char) :
    likeMatch ('%' :: p) s = (sufs s).any (fun t => likeMatch p t) := by
  simp [likeMatch]

theorem likeMatch_trailing_pct (b : List Char) : likeMatch ['%'] b = true := by
  rw [likeMatch_pct]
  simp only [List.any_eq_true]
  exact ⟨[], nil_mem_sufs b, by simp [likeMatch]⟩

theorem likeMatch_lit (p : List Char) :
    ∀ w : List Char, (∀ c ∈ w, c ≠ '%' ∧ c ≠ '_') →
      ∀ s, (likeMatch (w ++ p) s = true ↔ ∃ b, s = w ++ b ∧ likeMatch p b = true) := by
  intro w
  induction w with
  | nil =>
    intro _ s
    simp
  | cons c w ih =>
    intro hw s
    have hc := hw c (List.mem_cons_self c w)
    have hw' : ∀ d ∈ w, d ≠ '%' ∧ d ≠ '_' := fun d hd => hw d (List.mem_cons_of_mem c hd)
    cases s with
    | nil =>
      rw [List.cons_append]
      simp only [likeMatch, if_neg hc.1]
      simp
    | cons d s =>
      rw [List.cons_append]
      simp only [likeMatch, if_neg hc.1, if_neg hc.2, Bool.and_eq_true, beq_iff_eq,
        ih hw' s, List.cons_append, List.cons.injEq]
      constructor
      · rintro ⟨rfl, b, rfl, hb⟩
        exact ⟨b, ⟨rfl, rfl⟩, hb⟩
      · rintro ⟨b, ⟨rfl, rfl⟩, hb⟩
        exact ⟨rfl, b, rfl, hb⟩

theorem likeMatch_pct_wrap (w : List Char) (hw : ∀ c ∈ w, c ≠ '%' ∧ c ≠ '_')
    (s : List Char) : likeMatch ('%' :: (w ++ ['%'])) s = occursInB w s := by
  have h1 : likeMatch ('%' :: (w ++ ['%'])) s = true ↔ ∃ a b, s = a ++ w ++ b := by
    rw [likeMatch_pct]
    simp only [List.any_eq_true]
    constructor
    · rintro ⟨t, ht, hlit⟩
      obtain ⟨a, rfl⟩ := mem_sufs.mp ht
      obtain ⟨b, rfl, _⟩ := (likeMatch_lit ['%'] w hw t).mp hlit
      exact ⟨a, b, by simp⟩
    · rintro ⟨a, b, rfl⟩
      exact ⟨w ++ b, mem_sufs.mpr ⟨a, by simp⟩,
        (likeMatch_lit ['%'] w hw _).mpr ⟨b, rfl, likeMatch_trailing_pct b⟩⟩
  have h2 := occursInB_iff w s
  by_cases hb : occursInB w s = true
  · rw [hb, h1.mpr (h2.mp hb)]
  · have hnl : ¬likeMatch ('%' :: (w ++ ['%'])) s = true := fun hh => hb (h2.mpr (h1.mp hh))
    rw [Bool.not_eq_true] at hb hnl
    rw [hb, hnl]

theorem toLower_ne_pct (c : Char) (h : c ≠ '%') : c.toLower ≠ '%' := by
  unfold Char.toLower
  by_cases hc : c.toNat ≥ 65 ∧ c.toNat ≤ 90
  · rw [if_pos hc]
    intro heq
    have hn := congrArg Char.toNat heq
    rw [toNat_ofNat_of_lt (by omega)] at hn
    have h37 : Char.toNat '%' = 37 := rfl
    rw [h37] at hn
    omega
  · rw [if_neg hc]
    exact h

theorem toLower_ne_us (c : Char) (h : c ≠ '_') : c.toLower ≠ '_' := by
  unfold Char.toLower
  by_cases hc : c.toNat ≥ 65 ∧ c.toNat ≤ 90
  · rw [if_pos hc]
    intro heq
    have hn := congrArg Char.toNat heq
    rw [toNat_ofNat_of_lt (by omega)] at hn
    have h95 : Char.toNat '_' = 95 := rfl
    rw [h95] at hn
    omega
  · rw [if_neg hc]
    exact h

theorem keywordClause_iff (kw : String)
    (hw : ∀ c ∈ kw.data, c ≠ '%' ∧ c ≠ '_') (p : Post) :
    keywordClause kw p = true
      ↔ ∃ s, p.content = some s ∧ containsCI kw s = true := by
  cases hp : p.content with
  | none => simp [keywordClause, hp]
  | some s =>
    have hpct : ("%" : String).data = ['%'] := rfl
    have hlow : Char.toLower '%' = '%' := by decide
    have hpat : (("%" ++ kw ++ "%").data.map Char.toLower)
        = '%' :: (kw.data.map Char.toLower ++ ['%']) := by
      simp [String.data_append, hpct, hlow]
    have hwl : ∀ c ∈ kw.data.map Char.toLower, c ≠ '%' ∧ c ≠ '_' := by
      intro c hc
      obtain ⟨d, hd, rfl⟩ := List.mem_map.mp hc
      exact ⟨toLower_ne_pct d (hw d hd).1, toLower_ne_us d (hw d hd).2⟩
    simp only [keywordClause, hp, ilikeMatch, hpat, likeMatch_pct_wrap _ hwl,
      Option.some.injEq]
    constructor
    · intro hocc
      exact ⟨s, rfl, hocc⟩
    · rintro ⟨s', rfl, hocc⟩
      exact hocc

/-! ### Pagination lemmas -/

theorem take_drop_chunks {α : Type} (k : Nat) :
    ∀ (n : Nat) (l : List α), l.length ≤ n * k →
      ((List.range n).map (fun i => (l.drop (i * k)).take k)).flatten = l := by
  intro n
  induction n with
  | zero =>
    intro l h
    rw [Nat.zero_mul, Nat.le_zero] at h
    rw [List.eq_nil_of_length_eq_zero h]
    rfl
  | succ n ih =>
    intro l h
    rw [List.range_succ_eq_map, List.map_cons, List.map_map, List.flatten_cons]
    have harg : ((fun i => (l.drop (i * k)).take k) ∘ Nat.succ)
        = fun i => ((l.drop k).drop (i * k)).take k := by
      funext i
      simp only [Function.comp]
      rw [List.drop_drop]
      congr 2
      rw [Nat.succ_mul, Nat.add_comm]
    rw [harg, ih (l.drop k) (by rw [List.length_drop]; rw [Nat.succ_mul] at h; omega)]
    simp

/-! ### The claims -/

/-- Claim C1: for every store state, filter criteria and every limit and
offset, the `total_count` returned by the pipeline equals the number of
posts in the entire store matching the filter predicate, independently of
the values of `limit` and `offset`. -/
theorem claim_C1 (store : List Post) (category : Option String)
    (keywords : Option (List String)) (l₁ o₁ l₂ o₂ : Nat) :
    (get_processed_posts store category keywords l₁ o₁).1
        = (store.filter (postMatches category keywords)).length
    ∧ (get_processed_posts store category keywords l₁ o₁).1
        = (get_processed_posts store category keywords l₂ o₂).1 :=
  ⟨rfl, rfl⟩

/-- Claim C2: the page returned by the pipeline is the list of all matching
posts sorted in ascending order of `id` (`sortById` is a sorted permutation
of the matching posts), with the first `offset` elements dropped, at most
`limit` taken, and each surviving post processed, in that order. -/
theorem claim_C2 (store : List Post) (category : Option String)
    (keywords : Option (List String)) (limit offset : Nat) :
    (get_processed_posts store category keywords limit offset).2
        = (((sortById (store.filter (postMatches category keywords))).drop offset).take
            limit).map processPost
    ∧ List.Perm (sortById (store.filter (postMatches category keywords)))
        (store.filter (postMatches category keywords))
    ∧ List.Sorted postLe (sortById (store.filter (postMatches category keywords))) :=
  ⟨rfl, List.perm_insertionSort postLe _, List.sorted_insertionSort postLe _⟩

/-- Claim C3 counterexample: with the single keyword `"a_c"` the post whose
content is `"abc"` is selected by the implemented keyword filter even
though its content does not contain the literal substring `"a_c"`: the
underscore acts as a `LIKE` wildcard, refuting the claimed equivalence for
arbitrary keywords. -/
theorem claim_C3_counterexample :
    postMatches none (some ["a_c"]) ⟨1, none, some "abc"⟩ = true
    ∧ containsCI "a_c" "abc" = false := by
  constructor
  · decide
  · decide

/-- Claim C3 (amended): for every post and every non-empty list of keywords
**that contain no SQL `LIKE` wildcard characters (`%`, `_`)**, the post
matches the keyword filter if and only if, for every keyword in the list,
the post has a content containing that keyword as a case-insensitive
substring; a post whose content contains only some of the keywords is
excluded. -/
theorem claim_C3_amended (p : Post) (ks : List String)
    (hw : ∀ kw ∈ ks, ∀ c ∈ kw.data, c ≠ '%' ∧ c ≠ '_') (hne : ks ≠ []) :
    keywordsClause (some ks) p = true
      ↔ ∀ kw ∈ ks, ∃ s, p.content = some s ∧ containsCI kw s = true := by
  simp only [keywordsClause, List.all_eq_true]
  constructor
  · intro h kw hkw
    exact (keywordClause_iff kw (hw kw hkw) p).mp (h kw hkw)
  · intro h kw hkw
    exact (keywordClause_iff kw (hw kw hkw) p).mpr (h kw hkw)

theorem claim_C3_amended_witness :
    (∀ kw ∈ ["Python"], ∀ c ∈ kw.data, c ≠ '%' ∧ c ≠ '_')
    ∧ (["Python"] ≠ [])
    ∧ (keywordsClause (some ["Python"]) ⟨1, none, some "SQLAlchemy is great for Python ORM."⟩ = true
        ↔ ∀ kw ∈ ["Python"],
            ∃ s, (⟨1, none, some "SQLAlchemy is great for Python ORM."⟩ : Post).content = some s
              ∧ containsCI kw s = true) :=
  ⟨by decide, by decide,
    claim_C3_amended ⟨1, none, some "SQLAlchemy is great for Python ORM."⟩ ["Python"]
      (by decide) (by decide)⟩

/-- Claim C4: with the store unchanged, concatenating the pages fetched at
offsets `0, k, 2k, …` (each with limit `k`, over enough pages to cover
every match) reproduces exactly the full ascending-`id`-ordered processed
match list, with no post duplicated and none missing. -/
theorem claim_C4 (store : List Post) (category : Option String)
    (keywords : Option (List String)) (k n : Nat) (hk : 0 < k)
    (hn : (store.filter (postMatches category keywords)).length ≤ n * k) :
    ((List.range n).map
        (fun i => (get_processed_posts store category keywords k (i * k)).2)).flatten
      = (sortById (store.filter (postMatches category keywords))).map processPost := by
  have hpage : (fun i => (get_processed_posts store category keywords k (i * k)).2)
      = fun i => (((sortById (store.filter (postMatches category keywords))).drop
          (i * k)).take k).map processPost := by
    funext i
    rfl
  rw [hpage]
  have hcomp : (fun i => (((sortById (store.filter (postMatches category keywords))).drop
        (i * k)).take k).map processPost)
      = (List.map processPost)
          ∘ (fun i => ((sortById (store.filter (postMatches category keywords))).drop
              (i * k)).take k) := by
    funext i
    rfl
  rw [hcomp, ← List.map_map, ← List.map_flatten]
  congr 1
  apply take_drop_chunks k n
  rw [sortById, (List.perm_insertionSort postLe _).length_eq]
  exact hn

theorem claim_C4_witness :
    0 < 2
    ∧ (([⟨1, some "tech", some "a"⟩, ⟨2, some "news", some "b"⟩,
          ⟨3, some "life", some "c"⟩] : List Post).filter (postMatches none none)).length ≤ 2 * 2
    ∧ ((List.range 2).map
          (fun i => (get_processed_posts
            [⟨1, some "tech", some "a"⟩, ⟨2, some "news", some "b"⟩,
              ⟨3, some "life", some "c"⟩] none none 2 (i * 2)).2)).flatten
        = (sortById (([⟨1, some "tech", some "a"⟩, ⟨2, some "news", some "b"⟩,
            ⟨3, some "life", some "c"⟩] : List Post).filter
              (postMatches none none))).map processPost :=
  ⟨by decide, by decide,
    claim_C4 [⟨1, some "tech", some "a"⟩, ⟨2, some "news", some "b"⟩,
      ⟨3, some "life", some "c"⟩] none none 2 2 (by decide) (by decide)⟩

/-- Claim C5: for every text string, the word-frequency calculator returns
the multiset tally of the maximal runs of word characters of the text,
each token lowercased before counting — the tally's value at any key `w`
is the number of lowercased tokens equal to `w` — and in particular the
input `"SQLAlchemy is great for Python ORM."` yields exactly the mapping
sending `sqlalchemy`, `is`, `great`, `for`, `python` and `orm` to 1. -/
theorem claim_C5 :
    (∀ (t : String) (w : String),
        freqOf (calculate_word_frequency (some t)) w
          = ((tokenize t.data).map (fun tok => String.mk (tok.map Char.toLower))).count w)
    ∧ calculate_word_frequency (some "SQLAlchemy is great for Python ORM.")
        = [("sqlalchemy", 1), ("is", 1), ("great", 1), ("for", 1), ("python", 1),
            ("orm", 1)] :=
  ⟨freqOf_calculate_word_frequency, by decide⟩

/-- Claim C6 divergence: the implementation does not escape SQL `LIKE`
wildcards in user-supplied keywords. The keyword `"100%"` selects a post
whose content is `"100 percent"` even though the literal string `"100%"`
does not occur in it case-insensitively: the claim that a post matches if
and only if the literal keyword occurs in its content is violated. -/
theorem claim_C6_bug :
    keywordClause "100%" ⟨2, none, some "100 percent"⟩ = true
    ∧ containsCI "100%" "100 percent" = false := by
  constructor
  · decide
  · decide

/-- Claim C7: if `offset` is at least the number of matching posts, the
pipeline returns the pair of the true match count and the empty list, as a
normal result. -/
theorem claim_C7 (store : List Post) (category : Option String)
    (keywords : Option (List String)) (limit offset : Nat)
    (h : (store.filter (postMatches category keywords)).length ≤ offset) :
    get_processed_posts store category keywords limit offset
      = ((store.filter (postMatches category keywords)).length, []) := by
  have hdrop : (sortById (store.filter (postMatches category keywords))).drop offset
      = [] := by
    apply List.drop_eq_nil_of_le
    rw [sortById, (List.perm_insertionSort postLe _).length_eq]
    exact h
  simp only [get_processed_posts, hdrop, List.take_nil, List.map_nil]

theorem claim_C7_witness :
    (([⟨1, some "tech", some "a"⟩] : List Post).filter (postMatches none none)).length ≤ 5
    ∧ get_processed_posts [⟨1, some "tech", some "a"⟩] none none 10 5
        = ((([⟨1, some "tech", some "a"⟩] : List Post).filter (postMatches none none)).length,
            []) :=
  ⟨by decide, claim_C7 [⟨1, some "tech", some "a"⟩] none none 10 5 (by decide)⟩

/-- Claim C8: absent (`None`) or empty text yields the empty mapping, not
an error, and a post with missing content is processed exactly as if its
content were the empty string. -/
theorem claim_C8 :
    calculate_word_frequency none = []
    ∧ calculate_word_frequency (some "") = []
    ∧ ∀ (i : Nat) (c : Option String),
        processPost ⟨i, c, none⟩ = processPost ⟨i, c, some ""⟩ :=
  ⟨rfl, rfl, fun _ _ => rfl⟩

/-- Claim C9: the word-frequency mapping is a deterministic function of the
content alone — two invocations on equal content strings return equal
mappings, independent of any request context. -/
theorem claim_C9 (c₁ c₂ : Option String) (h : c₁ = c₂) :
    calculate_word_frequency c₁ = calculate_word_frequency c₂ := by
  rw [h]

theorem claim_C9_witness :
    (some "Python ORM" : Option String) = some "Python ORM"
    ∧ calculate_word_frequency (some "Python ORM")
        = calculate_word_frequency (some "Python ORM") :=
  ⟨rfl, claim_C9 (some "Python ORM") (some "Python ORM") rfl⟩

/-- Claim C10: passing the empty string as the category filter returns
exactly the same result as passing no category filter at all (Python's
truthiness test skips the clause), and a post whose stored category is the
empty string is never selected by an active category filter. -/
theorem claim_C10 :
    (∀ (store : List Post) (keywords : Option (List String)) (limit offset : Nat),
        get_processed_posts store (some "") keywords limit offset
          = get_processed_posts store none keywords limit offset)
    ∧ ∀ (c : String) (p : Post), c ≠ "" → p.category = some "" →
        categoryClause (some c) p = false := by
  constructor
  · intro store keywords limit offset
    have hpred : postMatches (some "") keywords = postMatches none keywords := by
      funext p
      simp [postMatches, categoryClause]
    simp only [get_processed_posts, hpred]
  · intro c p hc hp
    simp only [categoryClause, if_neg hc, hp, Option.some.injEq]
    simpa using fun heq => hc heq.symm

theorem claim_C10_witness :
    get_processed_posts [⟨1, some "", some "x"⟩] (some "") none 10 0
        = get_processed_posts [⟨1, some "", some "x"⟩] none none 10 0
    ∧ ("tech" ≠ "")
    ∧ ((⟨1, some "", some "x"⟩ : Post).category = some "")
    ∧ categoryClause (some "tech") ⟨1, some "", some "x"⟩ = false :=
  ⟨claim_C10.1 [⟨1, some "", some "x"⟩] none 10 0, by decide, rfl,
    claim_C10.2 "tech" ⟨1, some "", some "x"⟩ (by decide) rfl⟩

end GarantX
